import Mathlib

/-
Verification of the binviz point-cloud builder and camera controller
(src/binviz.cpp) against its natural-language specification.

The embedding models the C++ source directly:
- the input file is a list of raw byte values (naturals below 256);
- the buffer is declared as plain char, which is signed on the usual
  desktop targets (x86 gcc/clang/msvc), so reading a raw byte at or above
  128 yields a negative value; sbyte models that conversion;
- the packing loop (lines 94-100) computes, in a 32-bit int,
  x = buffer[i+2]; x = (x << 8) + buffer[i+1]; x = (x << 8) + buffer[i];
  all intermediate values stay well inside 32 bits, so the shift-add is
  exact integer arithmetic on the sign-extended values;
- the decode (lines 118-120) masks bytes out of the 32-bit two's
  complement representation of the packed int, modelled by byteAt via
  reduction modulo 2^32;
- std::sort on an int array produces the ascending sorted permutation,
  which is unique, so List.insertionSort with the ≤ order on ℤ models it
  exactly;
- the dedup pass (lines 106-135) emits one point per run of equal
  adjacent keys; the count field of Point is never initialized by the
  constructor (line 20-24 set only x, y, z), so each emitted point starts
  from an indeterminate value; the model takes that initial garbage as an
  explicit parameter g, one value per emission index, with g = 0 being
  the memory-happened-to-be-zero behaviour.
-/

namespace Binviz

/-- Conversion of a raw byte (0..255) through a signed char to int:
values at or above 128 are sign-extended, as on the usual desktop
platforms where plain char is signed. Models buffer[i] read as int in
src/binviz.cpp lines 96-98. -/
def sbyte (b : ℕ) : ℤ := if b < 128 then (b : ℤ) else (b : ℤ) - 256

/-- The packing of one byte triplet into an int, from lines 96-99:
x = b2; x = (x << 8) + b1; x = (x << 8) + b0, on sign-extended chars. -/
def packTriple (t : ℕ × ℕ × ℕ) : ℤ :=
  (sbyte t.2.2 * 256 + sbyte t.2.1) * 256 + sbyte t.1

/-- Modelled from the spec: the key packing the spec claims, namely
key = (b2 <<< 16) ||| (b1 <<< 8) ||| b0 on unsigned byte values. Used
only to compare the spec formula with the packing the code performs. -/
def specKey (t : ℕ × ℕ × ℕ) : ℕ := (t.2.2 <<< 16) ||| (t.2.1 <<< 8) ||| t.1

/-- Splitting the input byte list into complete triplets, dropping the
trailing 1-2 leftover bytes: the loop for (i = 0; i + 2 < length; i += 3)
of line 94. -/
def triples : List ℕ → List (ℕ × ℕ × ℕ)
  | b0 :: b1 :: b2 :: rest => (b0, b1, b2) :: triples rest
  | _ => []

/-- The sorted key buffer: pack every triplet, then sort ascending
(std::sort over int, line 104). The sorted permutation of an integer
list is unique, so insertionSort models std::sort exactly. -/
def sortedKeys (bytes : List ℕ) : List ℤ :=
  List.insertionSort (fun a b => a ≤ b) ((triples bytes).map packTriple)

/-- Run-length encoding of adjacent equal keys: the emission loop of
lines 107-135 emits a new point when a key differs from its predecessor
and otherwise increments the count of the last emitted point, so each
emitted point corresponds to one maximal run of equal adjacent keys. -/
def rle : List ℤ → List (ℤ × ℕ)
  | [] => []
  | k :: ks =>
    match rle ks with
    | [] => [(k, 1)]
    | (k2, m) :: rest =>
      if k = k2 then (k, m + 1) :: rest else (k, 1) :: (k2, m) :: rest

/-- The emitted runs for a byte input: one entry per emitted point,
carrying its packed key and the number of raw occurrences of that key. -/
def buildRuns (bytes : List ℕ) : List (ℤ × ℕ) := rle (sortedKeys bytes)

/-- Attaching the count field to each emitted point. The Point
constructor of lines 20-24 never initializes count, so the point emitted
at index i starts from an indeterminate value g i; the loop then
increments it once per duplicate occurrence, i.e. (run length - 1)
times. With g = 0 this is the behaviour the spec describes. -/
def attachCounts (g : ℕ → ℤ) (i : ℕ) : List (ℤ × ℕ) → List (ℤ × ℤ)
  | [] => []
  | r :: rest => (r.1, g i + (r.2 : ℤ) - 1) :: attachCounts g (i + 1) rest

/-- The full dedup result of loadFile as key/count pairs, parameterized
by the garbage g that the uninitialized count field starts from. -/
def buildCounts (g : ℕ → ℤ) (bytes : List ℕ) : List (ℤ × ℤ) :=
  attachCounts g 0 (buildRuns bytes)

/-- Sum of the count fields of a built point list. -/
def countSum (l : List (ℤ × ℤ)) : ℤ := (l.map Prod.snd).sum

/-- Extraction of one byte from the 32-bit two's complement
representation of the packed int: (packed >> shift) & 0xFF of
lines 118-120. Arithmetic shift followed by the 0xFF mask reads bits
8i..8i+7 of the 32-bit pattern, i.e. of packed mod 2^32. -/
def byteAt (k : ℤ) (i : ℕ) : ℕ := ((k % 4294967296).toNat >>> (8 * i)) % 256

/-- The float PI constant of line 11, idealized as a real literal. -/
def PI : ℝ := 3.14159265358979323846264

/-- Decoding a packed key into a 3D position, lines 118-132: the three
bytes are normalized to [0,1] by division by 255; the byte at bits 16-23
scaled by 2 PI is the first rotation angle, the byte at bits 8-15 the
second, and the byte at bits 0-7 is the radius; then the spherical to
cartesian conversion of lines 130-132. -/
noncomputable def pointOfKey (k : ℤ) : ℝ × ℝ × ℝ :=
  let x : ℝ := (byteAt k 2 : ℝ) / 255
  let y : ℝ := (byteAt k 1 : ℝ) / 255
  let z : ℝ := (byteAt k 0 : ℝ) / 255
  let xRot : ℝ := x * (2 * PI)
  let yRot : ℝ := y * (2 * PI)
  let radius : ℝ := z
  (radius * Real.sin xRot * Real.cos yRot,
   radius * Real.sin xRot * Real.sin yRot,
   radius * Real.cos xRot)

/-- The positions of the emitted points, in emission order. -/
noncomputable def buildPositions (bytes : List ℕ) : List (ℝ × ℝ × ℝ) :=
  (buildRuns bytes).map (fun r => pointOfKey r.1)

/-- The loadFile state transition on the global point set, lines 78-142:
points.clear() runs first, unconditionally; only then is the file opened.
A file that fails to open (none) leaves the set empty and returns 0; a
readable byte list is fully rebuilt and the triplet count returned. The
previous point set prev is never consulted. -/
def loadFile (g : ℕ → ℤ) (prev : List (ℤ × ℤ)) (file : Option (List ℕ)) :
    List (ℤ × ℤ) × ℕ :=
  match file with
  | none => ([], 0)
  | some bytes => (buildCounts g bytes, bytes.length / 3)

/-- GLFW press action code. -/
def GLFW_PRESS : ℤ := 1

/-- GLFW release action code. -/
def GLFW_RELEASE : ℤ := 0

/-- The mouse button callback of lines 60-63: mouseDown = (action ==
GLFW_PRESS), ignoring both the button argument and the previous state. -/
def mouseButtonCallback (mouseDown : Bool) (button : ℤ) (action : ℤ) : Bool :=
  action == GLFW_PRESS

/-- The scroll callback of lines 65-76 acting on zoomTarget: with shift
held the offset is added directly, otherwise divided by 25; then the
result is floored at 0.1. -/
def scroll (zoomTarget : ℚ) (yOffset : ℚ) (shiftHeld : Bool) : ℚ :=
  let zt := if shiftHeld then zoomTarget + yOffset else zoomTarget + yOffset / 25
  if zt < 1 / 10 then 1 / 10 else zt

/-- Folding a sequence of scroll events (offset, shift-held) over an
initial zoomTarget. -/
def scrollSeq (zt : ℚ) (events : List (ℚ × Bool)) : ℚ :=
  events.foldl (fun z e => scroll z e.1 e.2) zt

/-- The camera state: damped values and their targets (lines 31-34). -/
structure Camera where
  zoomLevel : ℚ
  zoomTarget : ℚ
  rotX : ℚ
  targetRotX : ℚ
  rotY : ℚ
  targetRotY : ℚ
  deriving DecidableEq

/-- The per-frame damping step of lines 193-195: each damped value moves
toward its target by the fraction deltaTime of the remaining distance;
the targets are untouched. -/
def advance (c : Camera) (dt : ℚ) : Camera :=
  { c with
    zoomLevel := c.zoomLevel + (c.zoomTarget - c.zoomLevel) * dt
    rotX := c.rotX + (c.targetRotX - c.rotX) * dt
    rotY := c.rotY + (c.targetRotY - c.rotY) * dt }

/-- Iterating the damping step n frames with a fixed deltaTime. -/
def advanceN (c : Camera) (dt : ℚ) : ℕ → Camera
  | 0 => c
  | n + 1 => advance (advanceN c dt n) dt

/-- The damping behaviour asserted for a fixed step: the per-frame update
law for the three damped values, constancy of the targets, monotone
approach of each value toward its target, no crossing of the target (the
signed distance keeps the sign it started with), and convergence within
any positive tolerance after sufficiently many frames. -/
def DampingSpec (c : Camera) (dt : ℚ) : Prop :=
  ((advance c dt).zoomLevel = c.zoomLevel + (c.zoomTarget - c.zoomLevel) * dt
    ∧ (advance c dt).rotX = c.rotX + (c.targetRotX - c.rotX) * dt
    ∧ (advance c dt).rotY = c.rotY + (c.targetRotY - c.rotY) * dt)
  ∧ (∀ n : ℕ, (advanceN c dt n).zoomTarget = c.zoomTarget
      ∧ (advanceN c dt n).targetRotX = c.targetRotX
      ∧ (advanceN c dt n).targetRotY = c.targetRotY)
  ∧ (∀ n : ℕ,
      |(advanceN c dt (n + 1)).zoomLevel - c.zoomTarget|
          ≤ |(advanceN c dt n).zoomLevel - c.zoomTarget|
      ∧ |(advanceN c dt (n + 1)).rotX - c.targetRotX|
          ≤ |(advanceN c dt n).rotX - c.targetRotX|
      ∧ |(advanceN c dt (n + 1)).rotY - c.targetRotY|
          ≤ |(advanceN c dt n).rotY - c.targetRotY|)
  ∧ (∀ n : ℕ,
      0 ≤ ((advanceN c dt n).zoomLevel - c.zoomTarget) * (c.zoomLevel - c.zoomTarget)
      ∧ 0 ≤ ((advanceN c dt n).rotX - c.targetRotX) * (c.rotX - c.targetRotX)
      ∧ 0 ≤ ((advanceN c dt n).rotY - c.targetRotY) * (c.rotY - c.targetRotY))
  ∧ ∀ ε : ℚ, 0 < ε → ∃ N : ℕ, ∀ n : ℕ, N ≤ n →
      |(advanceN c dt n).zoomLevel - c.zoomTarget| < ε
      ∧ |(advanceN c dt n).rotX - c.targetRotX| < ε
      ∧ |(advanceN c dt n).rotY - c.targetRotY| < ε

/- Helper lemmas shared by the claim theorems below. -/

/-- Any single scroll event leaves zoomTarget at or above the 0.1 floor. -/
theorem scroll_ge_floor (zt d : ℚ) (f : Bool) : 1 / 10 ≤ scroll zt d f := by
  cases f <;> simp only [scroll] <;> split_ifs with h <;> linarith

/-- Folding scroll events preserves being at or above the 0.1 floor. -/
theorem scrollSeq_ge (events : List (ℚ × Bool)) :
    ∀ zt : ℚ, 1 / 10 ≤ zt → 1 / 10 ≤ scrollSeq zt events := by
  induction events with
  | nil => intro zt h; exact h
  | cons e rest ih =>
    intro zt h
    exact ih (scroll zt e.1 e.2) (scroll_ge_floor zt e.1 e.2)

/-- The run multiplicities of rle sum to the length of the input list. -/
theorem rle_snd_sum : ∀ l : List ℤ, ((rle l).map Prod.snd).sum = l.length
  | [] => rfl
  | k :: ks => by
    have ih := rle_snd_sum ks
    simp only [rle]
    cases h : rle ks with
    | nil =>
      rw [h] at ih
      simp only [List.map_nil, List.sum_nil] at ih
      simp [← ih]
    | cons r rest =>
      obtain ⟨k2, m⟩ := r
      rw [h] at ih
      simp only [List.map_cons, List.sum_cons] at ih
      by_cases hk : k = k2 <;>
        simp [hk, List.map_cons, List.sum_cons, List.length_cons] <;> omega

/-- Attaching counts does not change the number of emitted points. -/
theorem attachCounts_length (g : ℕ → ℤ) : ∀ (i : ℕ) (l : List (ℤ × ℕ)),
    (attachCounts g i l).length = l.length
  | _, [] => rfl
  | i, r :: rest => by
    simp [attachCounts, attachCounts_length g (i + 1) rest]

/-- With zero-initialized counts, the total count is the total run
multiplicity minus the number of emitted points. -/
theorem countSum_attach_zero : ∀ (i : ℕ) (l : List (ℤ × ℕ)),
    countSum (attachCounts (fun _ => 0) i l)
      = ((l.map Prod.snd).sum : ℤ) - l.length
  | _, [] => by simp [attachCounts, countSum]
  | i, r :: rest => by
    have ih := countSum_attach_zero (i + 1) rest
    simp only [attachCounts, countSum, List.map_cons, List.sum_cons,
      List.length_cons] at ih ⊢
    push_cast at ih ⊢
    linarith

/-- The number of complete triplets is the byte count divided by 3. -/
theorem triples_length : ∀ l : List ℕ, (triples l).length = l.length / 3
  | [] => rfl
  | [a] => by
    have h : triples [a] = [] := rfl
    simp [h]
  | [a, b] => by
    have h : triples [a, b] = [] := rfl
    simp [h]
  | a :: b :: c :: rest => by
    simp only [triples, List.length_cons, triples_length rest]
    omega

/-- A list of at most two bytes contains no complete triplet. -/
theorem triples_small : ∀ e : List ℕ, e.length ≤ 2 → triples e = []
  | [], _ => rfl
  | [_], _ => rfl
  | [_, _], _ => rfl
  | _ :: _ :: _ :: _, h => by
    simp only [List.length_cons] at h
    omega

/-- Appending at most two bytes to a list of full triplets does not
change the extracted triplets. -/
theorem triples_append (e : List ℕ) (he : e.length ≤ 2) :
    ∀ l : List ℕ, l.length % 3 = 0 → triples (l ++ e) = triples l
  | [], _ => by simpa using triples_small e he
  | [_], h => by simp at h
  | [_, _], h => by simp at h
  | a :: b :: c :: rest, h => by
    have hr : rest.length % 3 = 0 := by
      simp only [List.length_cons] at h
      omega
    simp [triples, triples_append e he rest hr]

/-- Every decoded byte is below 256. -/
theorem byteAt_lt (k : ℤ) (i : ℕ) : byteAt k i < 256 :=
  Nat.mod_lt _ (by norm_num)

/-- The zero key decodes to all-zero bytes. -/
theorem byteAt_of_zero (i : ℕ) : byteAt 0 i = 0 := by
  simp [byteAt]

/-- The zero key maps to the origin: radius is 0, so the position is
(0, 0, 0) whatever the angles are. -/
theorem pointOfKey_zero : pointOfKey 0 = ((0 : ℝ), (0 : ℝ), (0 : ℝ)) := by
  simp [pointOfKey, byteAt_of_zero]

/-- The damping step never changes the three target fields. -/
theorem advanceN_targets (c : Camera) (dt : ℚ) : ∀ n : ℕ,
    (advanceN c dt n).zoomTarget = c.zoomTarget
    ∧ (advanceN c dt n).targetRotX = c.targetRotX
    ∧ (advanceN c dt n).targetRotY = c.targetRotY
  | 0 => ⟨rfl, rfl, rfl⟩
  | n + 1 => by
    obtain ⟨h1, h2, h3⟩ := advanceN_targets c dt n
    simp [advanceN, advance, h1, h2, h3]

/-- Closed form of the damped distances: after n frames each signed
distance to the target is the initial distance scaled by (1 - dt) ^ n. -/
theorem advanceN_diffs (c : Camera) (dt : ℚ) : ∀ n : ℕ,
    (advanceN c dt n).zoomLevel - c.zoomTarget
      = (c.zoomLevel - c.zoomTarget) * (1 - dt) ^ n
    ∧ (advanceN c dt n).rotX - c.targetRotX
      = (c.rotX - c.targetRotX) * (1 - dt) ^ n
    ∧ (advanceN c dt n).rotY - c.targetRotY
      = (c.rotY - c.targetRotY) * (1 - dt) ^ n
  | 0 => by norm_num [advanceN]
  | n + 1 => by
    obtain ⟨ih1, ih2, ih3⟩ := advanceN_diffs c dt n
    obtain ⟨ht1, ht2, ht3⟩ := advanceN_targets c dt n
    refine ⟨?_, ?_, ?_⟩
    · have e : (advanceN c dt (n + 1)).zoomLevel
          = (advanceN c dt n).zoomLevel
            + (c.zoomTarget - (advanceN c dt n).zoomLevel) * dt := by
        simp [advanceN, advance, ht1]
      rw [e]
      linear_combination (1 - dt) * ih1
    · have e : (advanceN c dt (n + 1)).rotX
          = (advanceN c dt n).rotX
            + (c.targetRotX - (advanceN c dt n).rotX) * dt := by
        simp [advanceN, advance, ht2]
      rw [e]
      linear_combination (1 - dt) * ih2
    · have e : (advanceN c dt (n + 1)).rotY
          = (advanceN c dt n).rotY
            + (c.targetRotY - (advanceN c dt n).rotY) * dt := by
        simp [advanceN, advance, ht3]
      rw [e]
      linear_combination (1 - dt) * ih3

/-- One geometric step does not increase the absolute distance. -/
theorem geom_le (d r : ℚ) (h0 : 0 ≤ r) (h1 : r ≤ 1) (n : ℕ) :
    |d * r ^ (n + 1)| ≤ |d * r ^ n| := by
  rw [abs_mul, abs_mul]
  refine mul_le_mul_of_nonneg_left ?_ (abs_nonneg d)
  rw [abs_pow, abs_pow, abs_of_nonneg h0]
  exact pow_le_pow_of_le_one h0 h1 (Nat.le_succ n)

/-- Geometric decay below any positive tolerance, over the rationals. -/
theorem geom_tendsto (d r ε : ℚ) (h0 : 0 ≤ r) (h1 : r < 1) (hε : 0 < ε) :
    ∃ N : ℕ, ∀ n : ℕ, N ≤ n → |d * r ^ n| < ε := by
  obtain ⟨N, hN⟩ :=
    exists_pow_lt_of_lt_one (x := ε / (|d| + 1)) (y := r) (by positivity) h1
  refine ⟨N, fun n hn => ?_⟩
  have hpow : r ^ n ≤ r ^ N := pow_le_pow_of_le_one h0 h1.le hn
  have hdpos : (0 : ℚ) < |d| + 1 := by positivity
  have habs : |d * r ^ n| = |d| * r ^ n := by
    rw [abs_mul, abs_pow, abs_of_nonneg h0]
  have hrn : (0 : ℚ) ≤ r ^ n := pow_nonneg h0 n
  calc |d * r ^ n| = |d| * r ^ n := habs
    _ ≤ (|d| + 1) * r ^ n := by nlinarith
    _ ≤ (|d| + 1) * r ^ N := by nlinarith
    _ < (|d| + 1) * (ε / (|d| + 1)) := by
        exact mul_lt_mul_of_pos_left hN hdpos
    _ = ε := by field_simp

/- Claim theorems. -/

/-- C1: the claim states that each triplet (b0, b1, b2) is packed into
the 24-bit key (b2 <<< 16) ||| (b1 <<< 8) ||| b0 and that emission order
is ascending order of these keys. The code reads the bytes through
signed chars, so any byte at or above 128 is sign-extended before
packing: the triplet (255, 255, 255) is packed as -65793, not 16777215,
and the input [0, 0, 255, 0, 0, 0] emits the point of triplet
(0, 0, 255) first although its spec key 16711680 exceeds the spec key 0
of (0, 0, 0). -/
theorem c1_packing_bug :
    packTriple (255, 255, 255) = -65793
    ∧ (specKey (255, 255, 255) : ℤ) = 16777215
    ∧ packTriple (255, 255, 255) ≠ (specKey (255, 255, 255) : ℤ)
    ∧ sortedKeys [0, 0, 255, 0, 0, 0]
        = [packTriple (0, 0, 255), packTriple (0, 0, 0)]
    ∧ packTriple (0, 0, 255) = -65536
    ∧ packTriple (0, 0, 0) = 0
    ∧ specKey (0, 0, 0) < specKey (0, 0, 255) := by
  decide

/-- C2: the claim states that every emitted count starts at 0, is
incremented once per extra occurrence, and that the counts plus the
number of points sum to the triplet count. The increment structure and
the sum identity do hold when the count memory starts at zero (first
conjunct), but the Point constructor never initializes the count field,
so the emitted counts sit on top of indeterminate garbage: with garbage
value 7 the single point of input [0, 0, 0] carries count 7 and the sum
identity fails. -/
theorem c2_count_sum :
    (∀ bytes : List ℕ,
      countSum (buildCounts (fun _ => 0) bytes)
          + ((buildCounts (fun _ => 0) bytes).length : ℤ)
        = ((bytes.length / 3 : ℕ) : ℤ))
    ∧ buildCounts (fun _ => 7) [0, 0, 0] = [(0, 7)]
    ∧ countSum (buildCounts (fun _ => 7) [0, 0, 0])
          + ((buildCounts (fun _ => 7) [0, 0, 0]).length : ℤ)
        ≠ ((([0, 0, 0] : List ℕ).length / 3 : ℕ) : ℤ) := by
  refine ⟨?_, by decide, by decide⟩
  intro bytes
  have h1 := countSum_attach_zero 0 (buildRuns bytes)
  have h2 := attachCounts_length (fun _ => 0) 0 (buildRuns bytes)
  have h3 := rle_snd_sum (sortedKeys bytes)
  have h4 : (sortedKeys bytes).length = (triples bytes).length := by
    unfold sortedKeys
    rw [(List.perm_insertionSort _ _).length_eq, List.length_map]
  have h5 := triples_length bytes
  unfold buildCounts
  rw [h1, h2]
  unfold buildRuns
  omega

/-- C3: on input [0,0,0, 0,0,0, 255,255,255] exactly two points are
emitted; with zero-initialized count memory the point of triplet (0,0,0)
(key 0) carries count 1 and the point of triplet (255,255,255) (key
-65793 after sign extension) carries count 0, matching the claim; but
with garbage 7 in the uninitialized count field the counts are 8 and 7
instead, so the claimed counts are not guaranteed by the code. The key 0
decodes to radius 0 and position (0, 0, 0) as claimed. -/
theorem c3_scenario :
    (buildCounts (fun _ => 0) [0, 0, 0, 0, 0, 0, 255, 255, 255]
        = [(-65793, 0), (0, 1)]
      ∧ buildCounts (fun _ => 7) [0, 0, 0, 0, 0, 0, 255, 255, 255]
        = [(-65793, 7), (0, 8)]
      ∧ packTriple (0, 0, 0) = 0
      ∧ packTriple (255, 255, 255) = -65793)
    ∧ pointOfKey 0 = ((0 : ℝ), (0 : ℝ), (0 : ℝ)) :=
  ⟨by decide, pointOfKey_zero⟩

/-- C4 counterexample: loadFile is claimed to leave the previous point
set untouched when the file cannot be opened, but points.clear() runs
before the open is attempted, so a failed load empties the set: from a
previous set holding one point, a failed load yields the empty set. -/
theorem c4_clears_on_failure :
    (loadFile (fun _ => 0) [(0, 0)] none).1 = []
    ∧ (loadFile (fun _ => 0) [(0, 0)] none).1 ≠ [(0, 0)] := by
  refine ⟨rfl, ?_⟩
  simp [loadFile]

/-- C4 amended: the result of loadFile never depends on the previously
built set; a failed load leaves the set empty, and a successful load
replaces it with the freshly built set and returns the triplet count. -/
theorem c4_replacement (g : ℕ → ℤ) (prev1 prev2 : List (ℤ × ℤ))
    (file : Option (List ℕ)) :
    loadFile g prev1 file = loadFile g prev2 file
    ∧ (loadFile g prev1 none).1 = []
    ∧ ∀ bytes : List ℕ,
        loadFile g prev1 (some bytes) = (buildCounts g bytes, bytes.length / 3) := by
  refine ⟨?_, rfl, fun bytes => rfl⟩
  cases file <;> rfl

/-- C5: a scroll event adds the offset (with the fast modifier) or the
offset divided by 25 (without it) and then clamps the result to the
floor 0.1, i.e. takes the maximum with 0.1; a single scroll of 25
without the modifier moves zoomTarget from 1 to exactly 2; and no
sequence of scroll events started from zoomTarget 1 can end below 0.1. -/
theorem c5_zoom_floor :
    (∀ zt d : ℚ,
      scroll zt d true = max (zt + d) (1 / 10)
      ∧ scroll zt d false = max (zt + d / 25) (1 / 10))
    ∧ scroll 1 25 false = 1 + 1
    ∧ ∀ events : List (ℚ × Bool), 1 / 10 ≤ scrollSeq 1 events := by
  have hmax : ∀ a : ℚ, (if a < 1 / 10 then (1 : ℚ) / 10 else a) = max a (1 / 10) := by
    intro a
    rcases le_or_lt a (1 / 10) with h | h
    · rw [max_eq_right h]
      split_ifs with h2
      · rfl
      · linarith
    · rw [max_eq_left h.le]
      split_ifs with h2
      · linarith
      · rfl
  refine ⟨fun zt d => ⟨?_, ?_⟩, by norm_num [scroll], fun events => ?_⟩
  · simpa only [scroll] using hmax (zt + d)
  · simpa only [scroll] using hmax (zt + d / 25)
  · exact scrollSeq_ge events 1 (by norm_num)

/-- C6: the per-frame step advances zoomLevel, rotX and rotY by the
fraction dt of the distance to their targets; for any fixed dt strictly
between 0 and 1 the iterates keep the targets fixed, approach each
target monotonically, never cross it, and get within any positive
tolerance after sufficiently many frames. -/
theorem c6_damping (c : Camera) (dt : ℚ) (h0 : 0 < dt) (h1 : dt < 1) :
    DampingSpec c dt := by
  have hr0 : (0 : ℚ) ≤ 1 - dt := by linarith
  have hr1 : (1 : ℚ) - dt < 1 := by linarith
  refine ⟨⟨rfl, rfl, rfl⟩, advanceN_targets c dt, fun n => ?_, fun n => ?_, fun ε hε => ?_⟩
  · obtain ⟨d1, d2, d3⟩ := advanceN_diffs c dt n
    obtain ⟨e1, e2, e3⟩ := advanceN_diffs c dt (n + 1)
    rw [d1, d2, d3, e1, e2, e3]
    exact ⟨geom_le _ _ hr0 hr1.le n, geom_le _ _ hr0 hr1.le n,
      geom_le _ _ hr0 hr1.le n⟩
  · obtain ⟨d1, d2, d3⟩ := advanceN_diffs c dt n
    rw [d1, d2, d3]
    have hp : (0 : ℚ) ≤ (1 - dt) ^ n := pow_nonneg hr0 n
    refine ⟨?_, ?_, ?_⟩ <;> nlinarith [sq_nonneg (c.zoomLevel - c.zoomTarget),
      sq_nonneg (c.rotX - c.targetRotX), sq_nonneg (c.rotY - c.targetRotY)]
  · obtain ⟨N1, hN1⟩ := geom_tendsto (c.zoomLevel - c.zoomTarget) (1 - dt) ε hr0 hr1 hε
    obtain ⟨N2, hN2⟩ := geom_tendsto (c.rotX - c.targetRotX) (1 - dt) ε hr0 hr1 hε
    obtain ⟨N3, hN3⟩ := geom_tendsto (c.rotY - c.targetRotY) (1 - dt) ε hr0 hr1 hε
    refine ⟨max (max N1 N2) N3, fun n hn => ?_⟩
    obtain ⟨d1, d2, d3⟩ := advanceN_diffs c dt n
    rw [d1, d2, d3]
    exact ⟨hN1 n (le_trans (le_max_left _ _) (le_trans (le_max_left _ _) hn)),
      hN2 n (le_trans (le_max_right _ _) (le_trans (le_max_left _ _) hn)),
      hN3 n (le_trans (le_max_right _ _) hn)⟩

/-- C6 witness: the damping behaviour at the concrete step 1/2 from the
camera with zoomLevel 0 toward zoomTarget 1 and rotations 0 toward
targets 2 and 3. -/
theorem c6_damping_witness :
    0 < (1 : ℚ) / 2 ∧ (1 : ℚ) / 2 < 1
    ∧ DampingSpec ⟨0, 1, 0, 2, 0, 3⟩ ((1 : ℚ) / 2) :=
  ⟨by norm_num, by norm_num,
    c6_damping ⟨0, 1, 0, 2, 0, 3⟩ ((1 : ℚ) / 2) (by norm_num) (by norm_num)⟩

/-- C7: appending one or two extra bytes to an input whose length is a
multiple of 3 changes neither the emitted runs, nor the counted points
for any initial count garbage, nor the emitted positions: the trailing
bytes are silently dropped. -/
theorem c7_truncation (bytes extra : List ℕ)
    (h3 : bytes.length % 3 = 0)
    (hx : extra.length = 1 ∨ extra.length = 2) :
    buildRuns (bytes ++ extra) = buildRuns bytes
    ∧ (∀ g : ℕ → ℤ, buildCounts g (bytes ++ extra) = buildCounts g bytes)
    ∧ buildPositions (bytes ++ extra) = buildPositions bytes := by
  have he : extra.length ≤ 2 := by rcases hx with h | h <;> omega
  have ht := triples_append extra he bytes h3
  have hr : buildRuns (bytes ++ extra) = buildRuns bytes := by
    unfold buildRuns sortedKeys
    rw [ht]
  refine ⟨hr, fun g => ?_, ?_⟩
  · unfold buildCounts
    rw [hr]
  · unfold buildPositions
    rw [hr]

/-- C7 witness: the three-byte input [1, 2, 3] with the single extra
byte [7]. -/
theorem c7_truncation_witness :
    ([1, 2, 3] : List ℕ).length % 3 = 0
    ∧ (([7] : List ℕ).length = 1 ∨ ([7] : List ℕ).length = 2)
    ∧ (buildRuns ([1, 2, 3] ++ [7]) = buildRuns [1, 2, 3]
      ∧ (∀ g : ℕ → ℤ, buildCounts g ([1, 2, 3] ++ [7]) = buildCounts g [1, 2, 3])
      ∧ buildPositions ([1, 2, 3] ++ [7]) = buildPositions [1, 2, 3]) :=
  ⟨by decide, by decide, c7_truncation [1, 2, 3] [7] (by decide) (by decide)⟩

/-- C8: every emitted position has squared euclidean norm at most 1: it
is radius times a unit direction built from sines and cosines, and the
radius is a byte value divided by 255, hence within [0, 1]. -/
theorem c8_radius_bound (bytes : List ℕ) (p : ℝ × ℝ × ℝ)
    (hp : p ∈ buildPositions bytes) :
    p.1 ^ 2 + p.2.1 ^ 2 + p.2.2 ^ 2 ≤ 1 := by
  rcases List.mem_map.mp hp with ⟨r, _, hpk⟩
  rw [← hpk]
  set k := r.1 with hk
  have hlt := byteAt_lt k 0
  have hb : (byteAt k 0 : ℝ) ≤ 255 := by exact_mod_cast Nat.lt_succ_iff.mp hlt
  have hb0 : (0 : ℝ) ≤ (byteAt k 0 : ℝ) := by positivity
  simp only [pointOfKey]
  set rad : ℝ := (byteAt k 0 : ℝ) / 255 with hrad
  set a : ℝ := (byteAt k 2 : ℝ) / 255 * (2 * PI) with ha
  set b : ℝ := (byteAt k 1 : ℝ) / 255 * (2 * PI) with hb2
  have hsa := Real.sin_sq_add_cos_sq a
  have hsb := Real.sin_sq_add_cos_sq b
  have hnorm :
      (rad * Real.sin a * Real.cos b) ^ 2 + (rad * Real.sin a * Real.sin b) ^ 2
        + (rad * Real.cos a) ^ 2 = rad ^ 2 := by
    linear_combination (rad ^ 2 * Real.sin a ^ 2) * hsb + rad ^ 2 * hsa
  have hrad1 : rad ≤ 1 := by
    rw [hrad, div_le_one (by norm_num)]
    exact hb
  have hrad0 : 0 ≤ rad := by positivity
  calc (rad * Real.sin a * Real.cos b) ^ 2 + (rad * Real.sin a * Real.sin b) ^ 2
        + (rad * Real.cos a) ^ 2 = rad ^ 2 := hnorm
    _ ≤ 1 := pow_le_one₀ hrad0 hrad1

/-- C8 witness: the input [0, 0, 0] emits the origin, whose squared norm
0 is at most 1. -/
theorem c8_radius_bound_witness :
    (((0 : ℝ), (0 : ℝ), (0 : ℝ)) ∈ buildPositions [0, 0, 0])
    ∧ (0 : ℝ) ^ 2 + (0 : ℝ) ^ 2 + (0 : ℝ) ^ 2 ≤ 1 := by
  have hruns : buildRuns [0, 0, 0] = [(0, 1)] := by decide
  have hm : ((0 : ℝ), (0 : ℝ), (0 : ℝ)) ∈ buildPositions [0, 0, 0] := by
    unfold buildPositions
    rw [hruns]
    simp [pointOfKey_zero]
  exact ⟨hm, c8_radius_bound [0, 0, 0] ((0 : ℝ), (0 : ℝ), (0 : ℝ)) hm⟩

/-- C9: the mouse button callback sets the drag flag from the action
alone: a press of any button starts dragging, a release of any button
(the same or a different one) stops it, from any prior state. -/
theorem c9_button_ignored :
    (∀ (s : Bool) (b : ℤ), mouseButtonCallback s b GLFW_PRESS = true)
    ∧ (∀ (s : Bool) (b : ℤ), mouseButtonCallback s b GLFW_RELEASE = false)
    ∧ ∀ (s : Bool) (b1 b2 act : ℤ),
        mouseButtonCallback s b1 act = mouseButtonCallback s b2 act :=
  ⟨fun _ _ => rfl, fun _ _ => rfl, fun _ _ _ _ => rfl⟩

/-- C10: the claim states that the most-significant key byte equals the
third triplet byte b2 and becomes x_norm. The decode does read bits
16-23 for x_norm, bits 8-15 for y_norm and bits 0-7 for the radius, but
because packing sign-extends the bytes, those bits need not hold b2: for
the triplet (b0, b1, b2) = (0, 128, 0) the packed key is -32768 and the
decoded x byte is 255, not b2 = 0, while under the spec packing it would
be 0. The radius byte does equal b0 here. -/
theorem c10_decode_mismatch :
    packTriple (0, 128, 0) = -32768
    ∧ byteAt (packTriple (0, 128, 0)) 2 = 255
    ∧ byteAt (packTriple (0, 128, 0)) 1 = 128
    ∧ byteAt (packTriple (0, 128, 0)) 0 = 0
    ∧ byteAt ((specKey (0, 128, 0) : ℤ)) 2 = 0
    ∧ (255 : ℕ) ≠ 0 := by
  decide

end Binviz
